import Mathlib

/-!
# conduit: the transfer job (transfer/transfer.go)

A shallow embedding of `splitEvenly`, `New`, `Job.workerFn` and `Job.Run`, and the
properties of the batch splitter, the worker loop, the progress projection and the
error channel.

Conventions of the embedding

* A Go slice of `*sqs.Message` is a `List Msg` for an arbitrary type `Msg`.
* Go `int` and `int64` values are `Int`; the one arithmetic operation whose result can leave
  the `int64` range (`int64(len(messages)) + GetCurrent()`) wraps through `wrapInt64`.
* A Go run-time panic is the `error` side of `Except GoPanic`.
* The external collaborators (termination channel, Retriever, Publisher, Deleter and the
  progress tracker's getters) are an oracle: each loop iteration receives the answers it
  observes in a `Responses` record, and the worker's calls are recorded as a list of `Event`s.
-/

namespace Transfer

/-! ## Run-time panics -/

/-- The run-time panics that the embedded code can raise. -/
inductive GoPanic where
  /-- Integer division by zero (`len(array)/size` with `size = 0`). -/
  | divideByZero
  /-- A negative capacity given to `make` (`makeslice: cap out of range`). -/
  | makesliceCap
  /-- A slice expression `array[:size]` with a negative bound. -/
  | sliceBounds
  /-- An explicit `panic(...)` of `New`: invalid concurrency. -/
  | invalidConcurrency
  /-- An explicit `panic(...)` of `New`: the queue size could not be estimated. -/
  | cantEstimate
  deriving DecidableEq, Repr

/-! ## splitEvenly (transfer.go, lines 108-122) -/

/-- The loop `for len(array) >= size { chunk, array = array[:size], array[size:]; ... }`.
The first argument bounds the number of loop tests; `splitEvenly` passes `len(array) + 1`,
which `splitLoop_spec` shows is never exhausted when `size > 0`. The result is the pair of the
remaining `array` and the accumulated `chunks`. -/
def splitLoop {Msg : Type} (size : Int) :
    Nat → List Msg → List (List Msg) → Except GoPanic (List Msg × List (List Msg))
  | 0, array, chunks => .ok (array, chunks)
  | fuel + 1, array, chunks =>
    if (array.length : Int) ≥ size then
      if size < 0 then .error GoPanic.sliceBounds
      else splitLoop size fuel (array.drop size.toNat) (chunks ++ [array.take size.toNat])
    else .ok (array, chunks)

/-- The function `splitEvenly(array, size)`: `make` with capacity `len(array)/size+1`
(truncated division, panics on `size = 0` and on a negative capacity), the loop, and the
final `if len(array) > 0 { chunks = append(chunks, array[:len(array)]) }`. -/
def splitEvenly {Msg : Type} (array : List Msg) (size : Int) :
    Except GoPanic (List (List Msg)) :=
  if size = 0 then .error GoPanic.divideByZero
  else if Int.tdiv (array.length : Int) size + 1 < 0 then .error GoPanic.makesliceCap
  else
    match splitLoop size (array.length + 1) array [] with
    | .error p => .error p
    | .ok (rest, chunks) =>
      if rest.length > 0 then .ok (chunks ++ [rest]) else .ok chunks


/-! ## int64 arithmetic -/

/-- The value of an `int64` expression whose mathematical value is `x`: Go wraps signed
overflow around in two's complement. -/
def wrapInt64 (x : Int) : Int := (x + 2 ^ 63) % 2 ^ 64 - 2 ^ 63

/-! ## Channels -/

/-- A buffered channel `make(chan T, cap)`: the queued values (oldest first), the capacity and
whether `close` was called. -/
structure Chan (α : Type) where
  buf : List α
  cap : Nat
  closed : Bool
  deriving DecidableEq, Repr

/-- The channel `make(chan T, cap)`. -/
def Chan.make {α : Type} (cap : Nat) : Chan α := { buf := [], cap := cap, closed := false }

/-- The send `ch <- x` with no receiver waiting: the value is queued when the buffer has room;
`none` means that the buffer is full and the sender blocks. -/
def Chan.send {α : Type} (ch : Chan α) (x : α) : Option (Chan α) :=
  if ch.buf.length < ch.cap then some { ch with buf := ch.buf ++ [x] } else none

/-- The call `close(ch)`. -/
def Chan.close {α : Type} (ch : Chan α) : Chan α := { ch with closed := true }

/-- The first receive of `for err := range ch` on a closed channel: the oldest queued value, or
`none` when the channel is drained and the loop body never runs. -/
def Chan.rangeFirst {α : Type} (ch : Chan α) : Option α := ch.buf.head?

/-- Sends the values of `xs` in order; `none` as soon as one send blocks. -/
def Chan.sendAll {α : Type} : Chan α → List α → Option (Chan α)
  | ch, [] => some ch
  | ch, x :: xs =>
    match ch.send x with
    | none => none
    | some ch1 => Chan.sendAll ch1 xs

/-! ## Job and New (transfer.go, lines 12-54) -/

/-- The configuration fields of `Job` and its error channel. The collaborators (`Sqs`,
`retriever`, `deleter`, `publisher`, `progressWorker`, `terminationCh`) are external; their
answers reach the worker through `Responses`. `progressMax` is the argument that `New` gives to
`progress.NewAsciiProgressWorker`. -/
structure Job (Err : Type) where
  SourceQueue : String
  DestinationQueue : String
  Delete : Bool
  Concurrency : Int
  batchSize : Int
  errorsCh : Chan Err
  progressMax : Int

/-- The constructor `New`. The argument `estimate` is the answer of
`retriever.GetApproximateNumberOfMessages(sourceQueue)`. The only checks are
`concurrency <= 0` and `err != nil`; `batchSize` is stored as given. -/
def New {Err : Type} (sourceQueue destinationQueue : String) (delete : Bool)
    (concurrency batchSize : Int) (estimate : Except Err Int) : Except GoPanic (Job Err) :=
  if concurrency ≤ 0 then .error GoPanic.invalidConcurrency
  else
    match estimate with
    | .error _ => .error GoPanic.cantEstimate
    | .ok messages =>
      .ok { SourceQueue := sourceQueue
            DestinationQueue := destinationQueue
            Delete := delete
            Concurrency := concurrency
            batchSize := batchSize
            errorsCh := Chan.make concurrency.toNat
            progressMax := messages }

/-! ## The worker loop (transfer.go, lines 56-106) -/

/-- What one iteration of the worker loop observes of its collaborators. -/
structure Responses (Msg Err : Type) where
  /-- Whether the `select` received from `terminationCh`. -/
  terminated : Bool
  /-- The result of `retriever.Retrieve(SourceQueue)`. -/
  retrieved : Except Err (List Msg)
  /-- The result of the `i`-th `publisher.Redeliver` call of the iteration (`none` is `nil`). -/
  redeliver : Nat → Option Err
  /-- The value of `progressWorker.GetCurrent()`. -/
  current : Int
  /-- The value of `progressWorker.GetMax()`. -/
  max : Int
  /-- The result of `deleter.Delete(messages, SourceQueue)` (`none` is `nil`). -/
  delete : Option Err

/-- The calls that a worker makes on its collaborators and its sends on `errorsCh`. -/
inductive Event (Msg Err : Type) where
  | Retrieve (queue : String)
  | Redeliver (batch : List Msg) (queue : String) (result : Option Err)
  | SetCurrent (value : Int)
  | Delete (messages : List Msg) (queue : String)
  | SendError (err : Err)
  deriving DecidableEq, Repr

/-- How an iteration, or a run of the loop, ends: `next` when the loop goes on to its next
iteration, `returned` when `workerFn` returns, `panicked` when a run-time panic unwinds it. -/
inductive Outcome where
  | next
  | returned
  | panicked (p : GoPanic)
  deriving DecidableEq, Repr

/-- The loop `for _, b := range batches { err = t.publisher.Redeliver(b, t.DestinationQueue) }`
from the `i`-th call on: every result is assigned to `err`, whatever the value it held. -/
def publishAll {Msg Err : Type} (destinationQueue : String) (redeliver : Nat → Option Err) :
    Nat → List (List Msg) → Option Err → List (Event Msg Err) × Option Err
  | _, [], err => ([], err)
  | i, b :: bs, _ =>
    let result := redeliver i
    let rest := publishAll destinationQueue redeliver (i + 1) bs result
    (Event.Redeliver b destinationQueue result :: rest.1, rest.2)

/-- Lines 81-85: `projection := int64(len(messages)) + GetCurrent()`, replaced by `GetMax()`
when it is greater. -/
def projection (n : Nat) (current max : Int) : Int :=
  let projection := wrapInt64 ((n : Int) + current)
  if projection > max then max else projection

/-- One iteration of the `for` loop of `workerFn`: the events in call order and the outcome. -/
def iteration {Msg Err : Type} (t : Job Err) (r : Responses Msg Err) :
    List (Event Msg Err) × Outcome :=
  if r.terminated then ([], Outcome.returned)
  else
    match r.retrieved with
    | .error err => ([Event.Retrieve t.SourceQueue, Event.SendError err], Outcome.returned)
    | .ok messages =>
      if messages.length = 0 then ([Event.Retrieve t.SourceQueue], Outcome.returned)
      else
        match splitEvenly messages t.batchSize with
        | .error p => ([Event.Retrieve t.SourceQueue], Outcome.panicked p)
        | .ok batches =>
          let published := publishAll t.DestinationQueue r.redeliver 0 batches none
          let evs := Event.Retrieve t.SourceQueue :: published.1 ++
            [Event.SetCurrent (projection messages.length r.current r.max)]
          match published.2 with
          | some err => (evs ++ [Event.SendError err], Outcome.returned)
          | none =>
            if t.Delete then
              match r.delete with
              | some err =>
                (evs ++ [Event.Delete messages t.SourceQueue, Event.SendError err],
                  Outcome.returned)
              | none => (evs ++ [Event.Delete messages t.SourceQueue], Outcome.next)
            else (evs, Outcome.next)

/-- The method `workerFn` run against the answers of its successive iterations. When the
answers run out while the loop is still going the outcome is `next`. -/
def workerFn {Msg Err : Type} (t : Job Err) :
    List (Responses Msg Err) → List (Event Msg Err) × Outcome
  | [] => ([], Outcome.next)
  | r :: rs =>
    match iteration t r with
    | (evs, Outcome.next) =>
      let rest := workerFn t rs
      (evs ++ rest.1, rest.2)
    | (evs, out) => (evs, out)

/-- The errors among the events, in order: what a worker sends on `errorsCh`. -/
def sentErrors {Msg Err : Type} : List (Event Msg Err) → List Err
  | [] => []
  | Event.SendError err :: evs => err :: sentErrors evs
  | _ :: evs => sentErrors evs

/-! ## The progress tracker -/

/-- Modelled from the spec: the progress tracker of package `progress`, which is not part of
the sources. It is "a counter bounded above by a fixed maximum" with the operations
`GetCurrent`, `GetMax` and `SetCurrent`; `SetCurrent` writes the counter. -/
structure ProgressWorker where
  current : Int
  max : Int
  deriving DecidableEq, Repr

/-- Modelled from the spec: `GetCurrent() → integer`. -/
def ProgressWorker.GetCurrent (p : ProgressWorker) : Int := p.current

/-- Modelled from the spec: `GetMax() → integer`. -/
def ProgressWorker.GetMax (p : ProgressWorker) : Int := p.max

/-- Modelled from the spec: `SetCurrent(integer)`. -/
def ProgressWorker.SetCurrent (p : ProgressWorker) (value : Int) : ProgressWorker :=
  { p with current := value }

/-- Lines 81-87 on the tracker, for an iteration that retrieved `n` messages. -/
def progressStep (p : ProgressWorker) (n : Nat) : ProgressWorker :=
  p.SetCurrent (projection n p.GetCurrent p.GetMax)

/-- The tracker states of a single worker after each of its iterations, the `i`-th iteration
retrieving `sizes[i]` messages. -/
def progressTrace : ProgressWorker → List Nat → List ProgressWorker
  | _, [] => []
  | p, n :: sizes => progressStep p n :: progressTrace (progressStep p n) sizes

/-! ## Run (transfer.go, lines 144-163) -/

/-- How a call of `Run` ends: it returns an error or `nil`, it never returns (a worker never
leaves its loop, or blocks on a send), or the process dies of a worker's panic. -/
inductive RunResult (Err : Type) where
  | returned (err : Option Err)
  | blocked
  | crashed (p : GoPanic)
  deriving DecidableEq, Repr

/-- The events and outcomes of the `t.Concurrency` goroutines started by `Run`. The goroutines
run the same code and carry no identity, and each of them sends at most once on `errorsCh`
(`workerFn_sendsLast`), so they are numbered in the order in which their sends reach the
channel; goroutine `i` observes `scripts i`, whatever the interleaving that produced these
answers. -/
def workers {Msg Err : Type} (t : Job Err) (scripts : Nat → List (Responses Msg Err)) :
    List (List (Event Msg Err) × Outcome) :=
  (List.range t.Concurrency.toNat).map fun i => workerFn t (scripts i)

/-- The errors sent on `errorsCh` by all the goroutines, in the order of their arrival. -/
def allSent {Msg Err : Type} (t : Job Err) (scripts : Nat → List (Responses Msg Err)) :
    List Err :=
  ((workers t scripts).map fun w => sentErrors w.1).flatten

/-- The first panic among worker outcomes. -/
def firstPanic : List Outcome → Option GoPanic
  | [] => none
  | Outcome.panicked p :: _ => some p
  | _ :: outs => firstPanic outs

/-- The method `Run`: the goroutines run, `wg.Wait()` returns once every one of them has
returned, then both channels are closed and the first value ranged over `errorsCh` is
returned, `nil` when there is none. -/
def Run {Msg Err : Type} (t : Job Err) (scripts : Nat → List (Responses Msg Err)) :
    RunResult Err :=
  let outs := (workers t scripts).map fun w => w.2
  match firstPanic outs with
  | some p => RunResult.crashed p
  | none =>
    if outs.all (fun o => o == Outcome.returned) then
      match t.errorsCh.sendAll (allSent t scripts) with
      | none => RunResult.blocked
      | some ch => RunResult.returned ch.close.rangeFirst
    else RunResult.blocked

/-! ## Concrete jobs and answers -/

/-- The `Job` that `New(sqs, "source", "destination", delete, concurrency, batchSize)` returns
when the queue size is estimated at 100; messages and errors are numbers. -/
def exampleJob (delete : Bool) (concurrency batchSize : Int) : Job Nat :=
  { SourceQueue := "source"
    DestinationQueue := "destination"
    Delete := delete
    Concurrency := concurrency
    batchSize := batchSize
    errorsCh := Chan.make concurrency.toNat
    progressMax := 100 }

/-- The answers of an iteration that retrieves `messages`; every call succeeds, except that the
`i`-th `Redeliver` fails with `redeliverErr i` and `Delete` with `deleteErr`, where given. -/
def exampleResponses (messages : List Nat) (redeliverErr : Nat → Option Nat)
    (deleteErr : Option Nat) : Responses Nat Nat :=
  { terminated := false
    retrieved := .ok messages
    redeliver := redeliverErr
    current := 0
    max := 100
    delete := deleteErr }

/-- The answers of an iteration that finds the source queue empty. -/
def exampleExhausted : Responses Nat Nat := exampleResponses [] (fun _ => none) none

/-- Four workers: the first retrieves two messages, publishes them and fails to delete them
with error 503; the three others find the queue empty. -/
def exampleScripts : Nat → List (Responses Nat Nat)
  | 0 => [exampleResponses [1, 2] (fun _ => none) (some 503)]
  | _ => [exampleExhausted]

/-! ## Sends on the error channel -/

/-- The events end with the only send they contain, or contain no send. -/
def SendsLast {Msg Err : Type} (evs : List (Event Msg Err)) (out : Outcome) : Prop :=
  sentErrors evs = [] ∨
    ∃ pre err, evs = pre ++ [Event.SendError err] ∧ sentErrors pre = [] ∧ out = Outcome.returned

/-! ## The batch splitter -/

theorem splitLoop_spec {Msg : Type} (b : Nat) (hb : 0 < b) :
    ∀ (fuel : Nat) (array : List Msg) (chunks : List (List Msg)), array.length < fuel →
      ∃ cs rest, splitLoop (b : Int) fuel array chunks = .ok (rest, chunks ++ cs) ∧
        cs.flatten ++ rest = array ∧ (∀ c ∈ cs, c.length = b) ∧ rest.length < b := by
  intro fuel
  induction fuel with
  | zero => intro array chunks h; omega
  | succ fuel ih =>
    intro array chunks h
    by_cases hge : b ≤ array.length
    · have hlen : (array.drop b).length < fuel := by
        rw [List.length_drop]; omega
      obtain ⟨cs, rest, hrun, hcat, hall, hrest⟩ := ih (array.drop b) (chunks ++ [array.take b]) hlen
      refine ⟨array.take b :: cs, rest, ?_, ?_, ?_, hrest⟩
      · have h1 : ((array.length : Int) ≥ (b : Int)) := by exact_mod_cast hge
        have h2 : ¬ ((b : Int) < 0) := by omega
        simp only [splitLoop, h1, h2, if_true, if_false, Int.toNat_ofNat]
        rw [hrun]; simp
      · simp only [List.flatten_cons, List.append_assoc, hcat, List.take_append_drop]
      · intro c hc
        rcases List.mem_cons.1 hc with rfl | hc
        · rw [List.length_take]; omega
        · exact hall c hc
    · refine ⟨[], array, ?_, by simp, by simp, by omega⟩
      have h1 : ¬ ((array.length : Int) ≥ (b : Int)) := by
        intro hh; exact hge (by exact_mod_cast hh)
      simp only [splitLoop, h1, if_false, List.append_nil]

theorem length_flatten_of_forall_length {Msg : Type} (b : Nat) :
    ∀ cs : List (List Msg), (∀ c ∈ cs, c.length = b) → cs.flatten.length = cs.length * b
  | [], _ => by simp
  | c :: cs, h => by
    have hc : c.length = b := h c (List.mem_cons_self _ _)
    have ih := length_flatten_of_forall_length b cs (fun x hx => h x (List.mem_cons_of_mem _ hx))
    simp only [List.flatten_cons, List.length_append, List.length_cons, hc, ih]
    rw [Nat.succ_mul]; omega
theorem splitEvenly_spec {Msg : Type} (array : List Msg) (b : Nat) (hb : 0 < b) :
    ∃ cs rest, splitEvenly array (b : Int) = .ok (cs ++ (if rest.length > 0 then [rest] else [])) ∧
      cs.flatten ++ rest = array ∧ (∀ c ∈ cs, c.length = b) ∧ rest.length < b ∧
      cs.length = array.length / b ∧ rest.length = array.length % b := by
  obtain ⟨cs, rest, hrun, hcat, hall, hrest⟩ :=
    splitLoop_spec b hb (array.length + 1) array [] (Nat.lt_succ_self _)
  have hlen : array.length = cs.length * b + rest.length := by
    have := congrArg List.length hcat
    rw [List.length_append, length_flatten_of_forall_length b cs hall] at this
    omega
  have hdiv : cs.length = array.length / b := by
    rw [hlen, Nat.mul_comm, Nat.mul_add_div hb, Nat.div_eq_of_lt hrest, Nat.add_zero]
  have hmod : rest.length = array.length % b := by
    rw [hlen, Nat.mul_comm, Nat.mul_add_mod, Nat.mod_eq_of_lt hrest]
  refine ⟨cs, rest, ?_, hcat, hall, hrest, hdiv, hmod⟩
  have h0 : ¬ ((b : Int) = 0) := by omega
  have h1 : ¬ (Int.tdiv (array.length : Int) (b : Int) + 1 < 0) := by
    have : 0 ≤ Int.tdiv (array.length : Int) (b : Int) :=
      Int.tdiv_nonneg (Int.ofNat_nonneg _) (Int.ofNat_nonneg _)
    omega
  simp only [splitEvenly, h0, h1, if_false, hrun, List.nil_append]
  by_cases hr : rest.length > 0 <;> simp [hr]
theorem ceil_div_eq (L b q r : Nat) (hb : 0 < b) (hL : L = q * b + r) (hr : r < b) :
    ((q + (if r > 0 then 1 else 0) : Nat) : Int) = ⌈(L : ℚ) / ((b : Int) : ℚ)⌉ := by
  symm
  rw [Int.ceil_eq_iff]
  simp only [Int.cast_natCast]
  have hbq : (0 : ℚ) < (b : ℚ) := by exact_mod_cast hb
  have hLq : (L : ℚ) = (q : ℚ) * (b : ℚ) + (r : ℚ) := by
    rw [hL]; push_cast; ring
  have hrq : (r : ℚ) < (b : ℚ) := by exact_mod_cast hr
  have hr0 : (0 : ℚ) ≤ (r : ℚ) := by exact_mod_cast Nat.zero_le r
  constructor
  · rw [lt_div_iff₀ hbq, hLq]
    by_cases h : r > 0
    · have hrp : (0 : ℚ) < (r : ℚ) := by exact_mod_cast h
      simp only [h, if_true]; push_cast; nlinarith
    · simp only [h, if_false]; push_cast; nlinarith
  · rw [div_le_iff₀ hbq, hLq]
    by_cases h : r > 0
    · simp only [h, if_true]; push_cast; nlinarith
    · have h0 : r = 0 := by omega
      subst h0
      simp
theorem int_eq_natCast_of_pos (size : Int) (h : 0 < size) : size = ((size.toNat : Nat) : Int) ∧ 0 < size.toNat := by
  constructor <;> omega

theorem splitEvenly_isOk {Msg : Type} (array : List Msg) (size : Int) (h : 0 < size) :
    ∃ chunks, splitEvenly array size = .ok chunks := by
  obtain ⟨hsz, hb⟩ := int_eq_natCast_of_pos size h
  obtain ⟨cs, rest, hrun, -⟩ := splitEvenly_spec array size.toNat hb
  rw [← hsz] at hrun
  exact ⟨_, hrun⟩

theorem splitEvenly_panics {Msg : Type} (array : List Msg) (size : Int) (h : size ≤ 0) :
    ∃ p, splitEvenly array size = .error p := by
  unfold splitEvenly
  by_cases h0 : size = 0
  · exact ⟨GoPanic.divideByZero, by simp only [h0, if_true]⟩
  · by_cases h1 : Int.tdiv (array.length : Int) size + 1 < 0
    · exact ⟨GoPanic.makesliceCap, by simp only [h0, h1, if_true, if_false]⟩
    · refine ⟨GoPanic.sliceBounds, ?_⟩
      have h2 : (array.length : Int) ≥ size := by omega
      have h3 : size < 0 := by omega
      simp only [h0, h1, if_false, splitLoop, h2, h3, if_true]

/-! ## The progress projection -/

theorem wrapInt64_eq_self (x : Int) (hlo : -(2 ^ 63) ≤ x) (hhi : x < 2 ^ 63) :
    wrapInt64 x = x := by
  unfold wrapInt64
  omega

theorem projection_eq_min (n : Nat) (current max : Int) :
    projection n current max = min (wrapInt64 ((n : Int) + current)) max := by
  unfold projection
  by_cases h : wrapInt64 ((n : Int) + current) > max
  · simp only [h, if_true]; rw [min_eq_right (le_of_lt h)]
  · simp only [h, if_false]; rw [min_eq_left (not_lt.1 h)]

theorem progressStep_bounds (p : ProgressWorker) (n : Nat) (h0 : 0 ≤ p.current)
    (hle : p.current ≤ p.max) (hov : (n : Int) + p.current < 2 ^ 63) :
    p.current ≤ (progressStep p n).current ∧ (progressStep p n).current ≤ p.max ∧
      (progressStep p n).max = p.max := by
  have hw : wrapInt64 ((n : Int) + p.current) = (n : Int) + p.current :=
    wrapInt64_eq_self _ (by omega) hov
  have hc : (progressStep p n).current = projection n p.current p.max := rfl
  have hm : (progressStep p n).max = p.max := rfl
  rw [hc, hm, projection_eq_min, hw]
  refine ⟨?_, min_le_right _ _, rfl⟩
  exact le_min (by omega) hle

theorem progressTrace_steps :
    ∀ (sizes : List Nat) (p : ProgressWorker), 0 ≤ p.current → p.current ≤ p.max →
      (∀ (i n : Nat) (before : ProgressWorker), sizes[i]? = some n →
        (p :: progressTrace p sizes)[i]? = some before →
        (n : Int) + before.current < 2 ^ 63) →
      ∀ (i : Nat) (before after : ProgressWorker),
        (p :: progressTrace p sizes)[i]? = some before →
        (progressTrace p sizes)[i]? = some after →
        before.current ≤ after.current ∧ after.current ≤ after.max ∧ after.max = p.max := by
  intro sizes
  induction sizes with
  | nil => intro p _ _ _ i before after _ h; simp [progressTrace] at h
  | cons n sizes ih =>
    intro p h0 hle hov i before after hb ha
    obtain ⟨h1, h2, h3⟩ := progressStep_bounds p n h0 hle (hov 0 n p (by simp) (by simp))
    cases i with
    | zero =>
      simp only [progressTrace, List.getElem?_cons_zero, Option.some.injEq] at hb ha
      subst hb; subst ha
      exact ⟨h1, by rw [h3]; exact h2, h3⟩
    | succ i =>
      simp only [progressTrace, List.getElem?_cons_succ] at hb ha
      have hb2 : (progressStep p n :: progressTrace (progressStep p n) sizes)[i]? =
          some before := hb
      have := ih (progressStep p n) (le_trans h0 h1) (by rw [h3]; exact h2)
        (fun k m b hk hb3 => hov (k + 1) m b
          (by simpa only [List.getElem?_cons_succ] using hk)
          (by simpa only [progressTrace, List.getElem?_cons_succ] using hb3)) i before after hb2 ha
      rw [h3] at this
      exact this

theorem progressTrace_length : ∀ (sizes : List Nat) (p : ProgressWorker),
    (progressTrace p sizes).length = sizes.length
  | [], _ => rfl
  | n :: sizes, p => by
    simp only [progressTrace, List.length_cons, progressTrace_length sizes (progressStep p n)]

/-! ## One iteration of the worker loop -/

theorem sentErrors_append {Msg Err : Type} :
    ∀ (xs ys : List (Event Msg Err)), sentErrors (xs ++ ys) = sentErrors xs ++ sentErrors ys
  | [], _ => rfl
  | Event.Retrieve _ :: xs, ys => by simpa [sentErrors] using sentErrors_append xs ys
  | Event.Redeliver _ _ _ :: xs, ys => by simpa [sentErrors] using sentErrors_append xs ys
  | Event.SetCurrent _ :: xs, ys => by simpa [sentErrors] using sentErrors_append xs ys
  | Event.Delete _ _ :: xs, ys => by simpa [sentErrors] using sentErrors_append xs ys
  | Event.SendError _ :: xs, ys => by simpa [sentErrors] using sentErrors_append xs ys

theorem publishAll_events {Msg Err : Type} (dst : String) (redeliver : Nat → Option Err) :
    ∀ (bs : List (List Msg)) (i : Nat) (err : Option Err),
      ∀ e ∈ (publishAll dst redeliver i bs err).1, ∃ b q res, e = Event.Redeliver b q res
  | [], _, _ => by intro e he; simp [publishAll] at he
  | b :: bs, i, _ => by
    intro e he
    simp only [publishAll, List.mem_cons] at he
    rcases he with rfl | he
    · exact ⟨_, _, _, rfl⟩
    · exact publishAll_events dst redeliver bs (i + 1) _ e he

theorem sentErrors_eq_nil_of_forall {Msg Err : Type} :
    ∀ (evs : List (Event Msg Err)), (∀ e ∈ evs, ∀ err, e ≠ Event.SendError err) →
      sentErrors evs = []
  | [], _ => rfl
  | e :: evs, h => by
    have ih := sentErrors_eq_nil_of_forall evs (fun x hx => h x (List.mem_cons_of_mem _ hx))
    cases e with
    | SendError err => exact absurd rfl (h _ (List.mem_cons_self _ _) err)
    | Retrieve _ => simpa [sentErrors] using ih
    | Redeliver _ _ _ => simpa [sentErrors] using ih
    | SetCurrent _ => simpa [sentErrors] using ih
    | Delete _ _ => simpa [sentErrors] using ih

theorem sentErrors_publishAll {Msg Err : Type} (dst : String) (redeliver : Nat → Option Err)
    (bs : List (List Msg)) (i : Nat) (err : Option Err) :
    sentErrors (publishAll dst redeliver i bs err).1 = [] := by
  apply sentErrors_eq_nil_of_forall
  intro e he err2 heq
  obtain ⟨b, q, res, hb⟩ := publishAll_events dst redeliver bs i err e he
  rw [hb] at heq
  cases heq

/-- The events of an iteration that got a non-empty answer from `Retrieve` and whose batch
size is positive: the `Retrieve`, the `Redeliver` calls, one `SetCurrent`, and then what
follows from the last `Redeliver` result, the `Delete` flag and the `Delete` result. -/
theorem iteration_shape {Msg Err : Type} (t : Job Err) (r : Responses Msg Err)
    (messages : List Msg) (hsize : 0 < t.batchSize) (hterm : r.terminated = false)
    (hret : r.retrieved = .ok messages) (hne : messages ≠ []) :
    ∃ batches, splitEvenly messages t.batchSize = .ok batches ∧
      ∃ tail out, iteration t r =
        (Event.Retrieve t.SourceQueue ::
          (publishAll t.DestinationQueue r.redeliver 0 batches none).1 ++
          Event.SetCurrent (projection messages.length r.current r.max) :: tail, out) ∧
        ((∃ err, (publishAll t.DestinationQueue r.redeliver 0 batches none).2 = some err ∧
            tail = [Event.SendError err] ∧ out = Outcome.returned) ∨
          ((publishAll t.DestinationQueue r.redeliver 0 batches none).2 = none ∧
            t.Delete = true ∧ ∃ err, r.delete = some err ∧
              tail = [Event.Delete messages t.SourceQueue, Event.SendError err] ∧
              out = Outcome.returned) ∨
          ((publishAll t.DestinationQueue r.redeliver 0 batches none).2 = none ∧
            t.Delete = true ∧ r.delete = none ∧
              tail = [Event.Delete messages t.SourceQueue] ∧ out = Outcome.next) ∨
          ((publishAll t.DestinationQueue r.redeliver 0 batches none).2 = none ∧
            t.Delete = false ∧ tail = [] ∧ out = Outcome.next)) := by
  obtain ⟨batches, hsplit⟩ := splitEvenly_isOk messages t.batchSize hsize
  refine ⟨batches, hsplit, ?_⟩
  have hlen : ¬ (messages.length = 0) := fun h => hne (List.length_eq_zero.1 h)
  simp only [iteration, hterm, hret, hlen, hsplit, if_false, Bool.false_eq_true]
  cases hpub : (publishAll t.DestinationQueue r.redeliver 0 batches none).2 with
  | some err =>
    refine ⟨[Event.SendError err], Outcome.returned, ?_, Or.inl ⟨err, rfl, rfl, rfl⟩⟩
    simp
  | none =>
    cases hdel : t.Delete with
    | false =>
      refine ⟨[], Outcome.next, ?_, Or.inr (Or.inr (Or.inr ⟨rfl, rfl, rfl, rfl⟩))⟩
      simp
    | true =>
      cases hd : r.delete with
      | some err =>
        refine ⟨_, Outcome.returned, ?_, Or.inr (Or.inl ⟨rfl, rfl, err, rfl, rfl, rfl⟩)⟩
        simp
      | none =>
        refine ⟨_, Outcome.next, ?_, Or.inr (Or.inr (Or.inl ⟨rfl, rfl, rfl, rfl, rfl⟩))⟩
        simp

/-! ## At most one send per worker -/

theorem iteration_sendsLast {Msg Err : Type} (t : Job Err) (r : Responses Msg Err) :
    SendsLast (iteration t r).1 (iteration t r).2 ∧
      ((iteration t r).2 = Outcome.next → sentErrors (iteration t r).1 = []) := by
  unfold iteration
  split
  · exact ⟨Or.inl rfl, fun _ => rfl⟩
  · split
    · rename_i err _
      exact ⟨Or.inr ⟨[Event.Retrieve t.SourceQueue], err, rfl, rfl, rfl⟩, fun h => by cases h⟩
    · split
      · exact ⟨Or.inl rfl, fun _ => rfl⟩
      · split
        · exact ⟨Or.inl rfl, fun _ => rfl⟩
        · rename_i messages _ _ _ batches _
          have hpre : sentErrors (Event.Retrieve t.SourceQueue ::
              (publishAll t.DestinationQueue r.redeliver 0 batches none).1 ++
              [Event.SetCurrent (projection messages.length r.current r.max)]) = [] := by
            rw [List.cons_append]
            simp only [sentErrors, sentErrors_append, sentErrors_publishAll, List.append_nil]
          simp only []
          split
          · rename_i err _
            exact ⟨Or.inr ⟨_, err, rfl, hpre, rfl⟩, fun h => by cases h⟩
          · split
            · split
              · rename_i err _
                refine ⟨Or.inr ⟨(Event.Retrieve t.SourceQueue ::
                  (publishAll t.DestinationQueue r.redeliver 0 batches none).1 ++
                  [Event.SetCurrent (projection messages.length r.current r.max)]) ++
                  [Event.Delete messages t.SourceQueue], err, ?_, ?_, rfl⟩,
                  fun h => by cases h⟩
                · simp
                · rw [sentErrors_append, hpre]; rfl
              · refine ⟨Or.inl ?_, fun _ => ?_⟩ <;>
                · rw [sentErrors_append, hpre]; rfl
            · exact ⟨Or.inl hpre, fun _ => hpre⟩

theorem workerFn_sendsLast {Msg Err : Type} (t : Job Err) :
    ∀ script : List (Responses Msg Err), SendsLast (workerFn t script).1 (workerFn t script).2
  | [] => Or.inl rfl
  | r :: rs => by
    have hit := iteration_sendsLast t r
    have ih := workerFn_sendsLast t rs
    cases hout : (iteration t r).2 with
    | next =>
      have hev : workerFn t (r :: rs) =
          ((iteration t r).1 ++ (workerFn t rs).1, (workerFn t rs).2) := by
        have : iteration t r = ((iteration t r).1, Outcome.next) := by rw [← hout]
        rw [workerFn, this]
      rw [hev]
      have h0 := hit.2 hout
      rcases ih with ih | ⟨pre, err, h1, h2, h3⟩
      · exact Or.inl (by rw [sentErrors_append, h0, ih]; rfl)
      · refine Or.inr ⟨(iteration t r).1 ++ pre, err, ?_, ?_, h3⟩
        · simp only [h1, List.append_assoc]
        · rw [sentErrors_append, h0, h2]; rfl
    | returned =>
      have hev : workerFn t (r :: rs) = iteration t r := by
        have : iteration t r = ((iteration t r).1, Outcome.returned) := by rw [← hout]
        rw [workerFn, this]
      rw [hev]; exact hit.1
    | panicked p =>
      have hev : workerFn t (r :: rs) = iteration t r := by
        have : iteration t r = ((iteration t r).1, Outcome.panicked p) := by rw [← hout]
        rw [workerFn, this]
      rw [hev]; exact hit.1

theorem sendsLast_length {Msg Err : Type} (evs : List (Event Msg Err)) (out : Outcome)
    (h : SendsLast evs out) : (sentErrors evs).length ≤ 1 := by
  rcases h with h | ⟨pre, err, h1, h2, -⟩
  · rw [h]; exact Nat.zero_le _
  · rw [h1, sentErrors_append, h2]; exact Nat.le_refl _

theorem nothing_after_send {Msg Err : Type} :
    ∀ (pre : List (Event Msg Err)) (e : Err) (pre2 : List (Event Msg Err)) (err : Err)
      (post : List (Event Msg Err)), sentErrors pre = [] →
      pre ++ [Event.SendError e] = pre2 ++ Event.SendError err :: post → post = []
  | [], e, [], err, post, _, h => by
    simp only [List.nil_append, List.cons.injEq] at h
    exact h.2.symm
  | [], e, x :: pre2, err, post, _, h => by
    simp only [List.nil_append, List.cons_append, List.cons.injEq] at h
    have := congrArg List.length h.2
    simp at this
    omega
  | x :: pre, e, [], err, post, hs, h => by
    simp only [List.nil_append, List.cons_append, List.cons.injEq] at h
    rw [h.1] at hs
    simp [sentErrors] at hs
  | x :: pre, e, y :: pre2, err, post, hs, h => by
    simp only [List.cons_append, List.cons.injEq] at h
    have hs2 : sentErrors pre = [] := by
      have := sentErrors_append [x] pre
      rw [List.singleton_append, hs] at this
      exact (List.append_eq_nil.1 this.symm).2
    exact nothing_after_send pre e pre2 err post hs2 h.2

theorem sendsLast_nothing_after {Msg Err : Type} (evs : List (Event Msg Err)) (out : Outcome)
    (h : SendsLast evs out) (pre : List (Event Msg Err)) (err : Err)
    (post : List (Event Msg Err)) (heq : evs = pre ++ Event.SendError err :: post) :
    post = [] ∧ out = Outcome.returned := by
  rcases h with h | ⟨pre1, e, h1, h2, h3⟩
  · rw [heq, sentErrors_append] at h
    simp [sentErrors] at h
  · rw [h1] at heq
    exact ⟨nothing_after_send pre1 e pre err post h2 heq, h3⟩

/-! ## New and Run -/

theorem New_eq_ok {Err : Type} (src dst : String) (delete : Bool) (concurrency batchSize : Int)
    (estimate : Except Err Int) (t : Job Err)
    (h : New src dst delete concurrency batchSize estimate = .ok t) :
    0 < concurrency ∧ t.Concurrency = concurrency ∧ t.batchSize = batchSize ∧
      t.errorsCh = Chan.make concurrency.toNat ∧ t.Delete = delete ∧
      t.SourceQueue = src ∧ t.DestinationQueue = dst ∧ estimate = .ok t.progressMax := by
  unfold New at h
  split at h
  · cases h
  · split at h
    · cases h
    · cases h
      exact ⟨by omega, rfl, rfl, rfl, rfl, rfl, rfl, rfl⟩

theorem Chan.sendAll_of_room {α : Type} :
    ∀ (xs : List α) (ch : Chan α), ch.buf.length + xs.length ≤ ch.cap →
      ch.sendAll xs = some { ch with buf := ch.buf ++ xs }
  | [], ch, _ => by simp [Chan.sendAll]
  | x :: xs, ch, h => by
    have hlt : ch.buf.length < ch.cap := by simp only [List.length_cons] at h; omega
    simp only [Chan.sendAll, Chan.send, hlt, if_true]
    rw [Chan.sendAll_of_room xs]
    · simp
    · simp only [List.length_append, List.length_cons, List.length_nil] at h ⊢
      omega

theorem length_flatten_map_le {β γ : Type} (f : β → List γ) (hf : ∀ x, (f x).length ≤ 1) :
    ∀ l : List β, ((l.map f).flatten).length ≤ l.length
  | [] => by simp
  | x :: l => by
    have ih := length_flatten_map_le f hf l
    have hx := hf x
    simp only [List.map_cons, List.flatten_cons, List.length_append, List.length_cons]
    omega

theorem allSent_eq {Msg Err : Type} (t : Job Err) (scripts : Nat → List (Responses Msg Err)) :
    allSent t scripts =
      ((List.range t.Concurrency.toNat).map
        fun i => sentErrors (workerFn t (scripts i)).1).flatten := by
  simp only [allSent, workers, List.map_map]
  rfl

theorem allSent_length_le {Msg Err : Type} (t : Job Err)
    (scripts : Nat → List (Responses Msg Err)) :
    (allSent t scripts).length ≤ t.Concurrency.toNat := by
  rw [allSent_eq]
  have := length_flatten_map_le (fun i => sentErrors (workerFn t (scripts i)).1)
    (fun i => sendsLast_length _ _ (workerFn_sendsLast t (scripts i)))
    (List.range t.Concurrency.toNat)
  simpa using this

theorem firstPanic_eq_none_of_returned :
    ∀ outs : List Outcome, (∀ o ∈ outs, o = Outcome.returned) → firstPanic outs = none
  | [], _ => rfl
  | o :: outs, h => by
    have ho := h o (List.mem_cons_self _ _)
    subst ho
    simpa [firstPanic] using
      firstPanic_eq_none_of_returned outs (fun x hx => h x (List.mem_cons_of_mem _ hx))

theorem all_returned_iff (outs : List Outcome) :
    outs.all (fun o => o == Outcome.returned) = true ↔ ∀ o ∈ outs, o = Outcome.returned := by
  simp [List.all_eq_true]

/-- The outcome of `Run` for a `Job` whose error channel has room for one error per worker:
it returns exactly when every worker has returned, and then the result is the oldest error
on the channel. -/
theorem Run_eq_returned_iff {Msg Err : Type} (t : Job Err)
    (hch : t.errorsCh = Chan.make t.Concurrency.toNat)
    (scripts : Nat → List (Responses Msg Err)) (res : Option Err) :
    Run t scripts = RunResult.returned res ↔
      ((∀ i, i < t.Concurrency.toNat → (workerFn t (scripts i)).2 = Outcome.returned) ∧
        res = (allSent t scripts).head?) := by
  have houts : (∀ o ∈ (workers t scripts).map (fun w => w.2), o = Outcome.returned) ↔
      ∀ i, i < t.Concurrency.toNat → (workerFn t (scripts i)).2 = Outcome.returned := by
    simp only [workers, List.map_map, List.mem_map, List.mem_range, Function.comp]
    constructor
    · intro h i hi; exact h _ ⟨i, hi, rfl⟩
    · rintro h o ⟨i, hi, rfl⟩; exact h i hi
  have hsend : t.errorsCh.sendAll (allSent t scripts) =
      some { t.errorsCh with buf := t.errorsCh.buf ++ allSent t scripts } := by
    apply Chan.sendAll_of_room
    rw [hch]
    simpa [Chan.make] using allSent_length_le t scripts
  unfold Run
  simp only []
  cases hp : firstPanic ((workers t scripts).map fun w => w.2) with
  | some p =>
    simp only []
    constructor
    · intro h; cases h
    · rintro ⟨hall, -⟩
      rw [firstPanic_eq_none_of_returned _ (houts.2 hall)] at hp
      cases hp
  | none =>
    simp only []
    by_cases hall : ((workers t scripts).map fun w => w.2).all (fun o => o == Outcome.returned) = true
    · have hall2 := houts.1 ((all_returned_iff _).1 hall)
      simp only [hall, if_true, hsend, Chan.close, Chan.rangeFirst, RunResult.returned.injEq]
      rw [hch]
      simp only [Chan.make, List.nil_append]
      constructor
      · intro h; exact ⟨hall2, h.symm⟩
      · intro h; exact h.2.symm
    · simp only [hall, if_false, Bool.false_eq_true]
      constructor
      · intro h; cases h
      · rintro ⟨h, -⟩
        exact absurd ((all_returned_iff _).2 (houts.2 h)) hall

theorem flatten_map_single {β γ : Type} (f : β → List γ) (j : β) (e : γ) (hj : f j = [e]) :
    ∀ l : List β, l.Nodup → j ∈ l → (∀ i ∈ l, i ≠ j → f i = []) → (l.map f).flatten = [e]
  | [], _, hmem, _ => by cases hmem
  | x :: l, hnd, hmem, hoth => by
    rw [List.nodup_cons] at hnd
    simp only [List.map_cons, List.flatten_cons]
    by_cases hx : x = j
    · subst hx
      have hrest : (l.map f).flatten = [] := by
        rw [List.flatten_eq_nil_iff]
        intro ys hys
        obtain ⟨i, hi, rfl⟩ := List.mem_map.1 hys
        exact hoth i (List.mem_cons_of_mem _ hi) (fun h => hnd.1 (h ▸ hi))
      rw [hj, hrest]; rfl
    · have hjl : j ∈ l := by
        rcases List.mem_cons.1 hmem with h | h
        · exact absurd h.symm hx
        · exact h
      rw [hoth x (List.mem_cons_self _ _) hx, List.nil_append]
      exact flatten_map_single f j e hj l hnd.2 hjl
        (fun i hi hne => hoth i (List.mem_cons_of_mem _ hi) hne)

/-! ## The claims -/

/-- Claim C1: for every message sequence `array` and every batch size `size > 0`,
`splitEvenly(array, size)` returns, and the concatenation of its batches in order is exactly
`array`. -/
theorem splitEvenly_flatten {Msg : Type} (array : List Msg) (size : Int) (h : 0 < size) :
    ∃ chunks, splitEvenly array size = .ok chunks ∧ chunks.flatten = array := by
  obtain ⟨hsz, hb⟩ := int_eq_natCast_of_pos size h
  obtain ⟨cs, rest, hrun, hcat, -, -, -, -⟩ := splitEvenly_spec array size.toNat hb
  rw [← hsz] at hrun
  refine ⟨_, hrun, ?_⟩
  by_cases hr : rest.length > 0
  · simp only [hr, if_true, List.flatten_append, List.flatten_cons, List.flatten_nil,
      List.append_nil, hcat]
  · have : rest = [] := List.length_eq_zero.1 (by omega)
    subst this
    simpa using hcat

/-- Claim C1 at five messages and batch size 2. -/
theorem splitEvenly_flatten_witness :
    (0 : Int) < 2 ∧ ∃ chunks, splitEvenly [10, 20, 30, 40, 50] 2 = .ok chunks ∧
      chunks.flatten = [10, 20, 30, 40, 50] :=
  ⟨by decide, splitEvenly_flatten [10, 20, 30, 40, 50] 2 (by decide)⟩

/-- Claim C4: for every input of length `L` and every batch size `B > 0`, `splitEvenly`
returns exactly `⌈L / B⌉` batches, and no batch when `L = 0`. -/
theorem splitEvenly_length {Msg : Type} (array : List Msg) (size : Int) (h : 0 < size) :
    ∃ chunks, splitEvenly array size = .ok chunks ∧
      (chunks.length : Int) = ⌈(array.length : ℚ) / (size : ℚ)⌉ ∧
      (array.length = 0 → chunks.length = 0) := by
  obtain ⟨hsz, hb⟩ := int_eq_natCast_of_pos size h
  obtain ⟨cs, rest, hrun, hcat, hall, hrest, hdiv, hmod⟩ := splitEvenly_spec array size.toNat hb
  rw [← hsz] at hrun
  have hL : array.length = cs.length * size.toNat + rest.length := by
    rw [hdiv, hmod, Nat.mul_comm]; exact (Nat.div_add_mod _ _).symm
  have hlen : (cs ++ (if rest.length > 0 then [rest] else [])).length =
      cs.length + (if rest.length > 0 then 1 else 0) := by
    by_cases hr : rest.length > 0 <;> simp [hr]
  refine ⟨_, hrun, ?_, ?_⟩
  · rw [hlen, hsz]
    exact ceil_div_eq array.length size.toNat cs.length rest.length hb hL hrest
  · intro h0
    rw [hlen]
    have h1 : cs.length = 0 := by rw [hdiv, h0, Nat.zero_div]
    have h2 : rest.length = 0 := by rw [hmod, h0, Nat.zero_mod]
    simp [h1, h2]

/-- Claim C4 at five messages and batch size 2: three batches. -/
theorem splitEvenly_length_witness :
    (0 : Int) < 2 ∧ ∃ chunks, splitEvenly [10, 20, 30, 40, 50] 2 = .ok chunks ∧
      (chunks.length : Int) = ⌈(([10, 20, 30, 40, 50] : List Nat).length : ℚ) / ((2 : Int) : ℚ)⌉ ∧
      (([10, 20, 30, 40, 50] : List Nat).length = 0 → chunks.length = 0) :=
  ⟨by decide, splitEvenly_length [10, 20, 30, 40, 50] 2 (by decide)⟩

/-- Claim C5: for every input of length `L` and every batch size `B > 0`, every batch that
`splitEvenly` returns, except possibly the last, has length exactly `B`; the last batch has
length `L mod B` when that is not zero and `B` otherwise; so every batch has a length between
1 and `B`. -/
theorem splitEvenly_chunk_lengths {Msg : Type} (array : List Msg) (size : Int) (h : 0 < size) :
    ∃ chunks, splitEvenly array size = .ok chunks ∧
      (∀ (i : Nat) (c : List Msg), i + 1 < chunks.length → chunks[i]? = some c →
        (c.length : Int) = size) ∧
      (∀ last, chunks.getLast? = some last →
        (last.length : Int) =
          if (array.length : Int) % size ≠ 0 then (array.length : Int) % size else size) ∧
      (∀ c ∈ chunks, 1 ≤ c.length ∧ (c.length : Int) ≤ size) := by
  obtain ⟨hsz, hb⟩ := int_eq_natCast_of_pos size h
  obtain ⟨cs, rest, hrun, hcat, hall, hrest, hdiv, hmod⟩ := splitEvenly_spec array size.toNat hb
  rw [← hsz] at hrun
  have hmodInt : (array.length : Int) % size = ((array.length % size.toNat : Nat) : Int) := by
    rw [hsz]; simp
  refine ⟨_, hrun, ?_, ?_, ?_⟩
  · intro i c hi hc
    by_cases hr : rest.length > 0
    · simp only [hr, if_true, List.length_append, List.length_singleton] at hi
      simp only [hr, if_true] at hc
      rw [List.getElem?_append_left (by omega)] at hc
      have := hall c (List.getElem?_mem hc)
      omega
    · simp only [hr, if_false, List.append_nil] at hi hc
      have := hall c (List.getElem?_mem hc)
      omega
  · intro last hlast
    by_cases hr : rest.length > 0
    · simp only [hr, if_true, List.getLast?_concat, List.getLast?_singleton,
        Option.or_some] at hlast
      have : last = rest := by simpa using hlast.symm
      subst this
      rw [hmodInt, ← hmod]
      have : ¬ ((last.length : Int) = 0) := by omega
      simp [this]
    · simp only [hr, if_false, List.append_nil] at hlast
      have hmem := List.mem_of_getLast?_eq_some hlast
      have h1 := hall last hmem
      have h0 : array.length % size.toNat = 0 := by omega
      rw [hmodInt, h0]
      simp only [Nat.cast_zero, ne_eq, not_true_eq_false, if_false]
      omega
  · intro c hc
    rcases List.mem_append.1 hc with hc | hc
    · have := hall c hc
      omega
    · by_cases hr : rest.length > 0
      · simp only [hr, if_true, List.mem_singleton] at hc
        subst hc
        omega
      · simp [hr] at hc

/-- Claim C5 at five messages and batch size 2: the batches are `[10, 20]`, `[30, 40]` and
`[50]`. -/
theorem splitEvenly_chunk_lengths_witness :
    (0 : Int) < 2 ∧ splitEvenly [10, 20, 30, 40, 50] 2 = .ok [[10, 20], [30, 40], [50]] ∧
      ∃ chunks, splitEvenly [10, 20, 30, 40, 50] 2 = .ok chunks ∧
      (∀ (i : Nat) (c : List Nat), i + 1 < chunks.length → chunks[i]? = some c →
        (c.length : Int) = 2) ∧
      (∀ last, chunks.getLast? = some last →
        (last.length : Int) =
          if ((([10, 20, 30, 40, 50] : List Nat).length : Nat) : Int) % 2 ≠ 0
          then ((([10, 20, 30, 40, 50] : List Nat).length : Nat) : Int) % 2 else 2) ∧
      (∀ c ∈ chunks, 1 ≤ c.length ∧ (c.length : Int) ≤ 2) :=
  ⟨by decide, rfl, splitEvenly_chunk_lengths [10, 20, 30, 40, 50] 2 (by decide)⟩

/-- Claim C6 fails on the code: `New` with concurrency 1 and batch size 0 does not fail. It
returns a `Job` whose batch size is 0, and a worker of that job that retrieves one message
calls `splitEvenly` with size 0, which panics on the division `len(array)/size`. -/
theorem New_accepts_zero_batchSize :
    New "source" "destination" false 1 0 (.ok 100) = .ok (exampleJob false 1 0) ∧
      (exampleJob false 1 0).batchSize = 0 ∧
      splitEvenly [7] (exampleJob false 1 0).batchSize = .error GoPanic.divideByZero ∧
      iteration (exampleJob false 1 0) (exampleResponses [7] (fun _ => none) none) =
        ([Event.Retrieve "source"], Outcome.panicked GoPanic.divideByZero) :=
  ⟨rfl, rfl, rfl, rfl⟩

/-- Claim C7, as stated, fails: from the tracker with `current = max = 2^63 - 1`, which
satisfies `0 <= current <= max`, an iteration that retrieves one message sets `current` to
`-2^63`, because the `int64` sum wraps around. -/
theorem progressStep_wraps_at_int64_max :
    (0 : Int) ≤ 9223372036854775807 ∧
      progressTrace { current := 9223372036854775807, max := 9223372036854775807 } [1] =
        [{ current := -9223372036854775808, max := 9223372036854775807 }] ∧
      (progressStep { current := 9223372036854775807, max := 9223372036854775807 } 1).current <
        9223372036854775807 := by
  decide

/-- Claim C7, amended: for a single worker, starting from a tracker with
`0 <= current <= max` and for every finite sequence of retrieval sizes in which no `int64` sum
`len(messages) + current` overflows (`n + current < 2^63` at each iteration), there is one
tracker state per iteration, and after each iteration `current` is at least its value before
that iteration and at most `max`, which does not change; the cumulative count may exceed
`max`. -/
theorem progressTrace_monotone_bounded (p : ProgressWorker) (sizes : List Nat)
    (h0 : 0 ≤ p.current) (hle : p.current ≤ p.max)
    (hov : ∀ (i n : Nat) (before : ProgressWorker), sizes[i]? = some n →
      (p :: progressTrace p sizes)[i]? = some before → (n : Int) + before.current < 2 ^ 63) :
    (progressTrace p sizes).length = sizes.length ∧
      ∀ (i : Nat) (before after : ProgressWorker),
        (p :: progressTrace p sizes)[i]? = some before →
        (progressTrace p sizes)[i]? = some after →
        before.current ≤ after.current ∧ after.current ≤ after.max ∧ after.max = p.max :=
  ⟨progressTrace_length sizes p, progressTrace_steps sizes p h0 hle hov⟩

/-- Claim C7, amended, at a tracker `(0, 5)` and retrieval sizes 3, 4 and 10, whose sum 17
exceeds the maximum 5: the successive values of `current` are 3, 5 and 5. -/
theorem progressTrace_monotone_bounded_witness :
    progressTrace { current := 0, max := 5 } [3, 4, 10] =
        [{ current := 3, max := 5 }, { current := 5, max := 5 }, { current := 5, max := 5 }] ∧
      (progressTrace { current := 0, max := 5 } [3, 4, 10]).length = [3, 4, 10].length ∧
      ∀ (i : Nat) (before after : ProgressWorker),
        (({ current := 0, max := 5 } : ProgressWorker) ::
          progressTrace { current := 0, max := 5 } [3, 4, 10])[i]? = some before →
        (progressTrace { current := 0, max := 5 } [3, 4, 10])[i]? = some after →
        before.current ≤ after.current ∧ after.current ≤ after.max ∧
          after.max = ({ current := 0, max := 5 } : ProgressWorker).max :=
  ⟨by decide, progressTrace_monotone_bounded { current := 0, max := 5 } [3, 4, 10]
    (by decide) (by decide) (by
      intro i n before hn hb
      match i, hn, hb with
      | 0, hn, hb => cases hn; cases hb; decide
      | 1, hn, hb => cases hn; cases hb; decide
      | 2, hn, hb => cases hn; cases hb; decide
      | k + 3, hn, _ => simp at hn)⟩

/-- Claim C2 fails on the code: with batch size 1, two retrieved messages, a `Redeliver` that
fails with error 500 on the first batch and succeeds on the second, the worker sends no error,
goes on to its next iteration and calls `Retrieve` again. -/
theorem workerFn_loses_early_redeliver_error :
    New "source" "destination" false 1 1 (.ok 100) = .ok (exampleJob false 1 1) ∧
      workerFn (exampleJob false 1 1)
          [exampleResponses [1, 2] (fun i => if i = 0 then some 500 else none) none,
            exampleExhausted] =
        ([Event.Retrieve "source",
          Event.Redeliver [1] "destination" (some 500),
          Event.Redeliver [2] "destination" none,
          Event.SetCurrent 2,
          Event.Retrieve "source"], Outcome.returned) :=
  ⟨rfl, rfl⟩

/-- Claim C3 fails on the code: with the `Delete` flag set, batch size 1, two retrieved
messages and a `Redeliver` that fails with error 500 on the first batch and succeeds on the
second, `Delete` is called on the two messages although one `Redeliver` returned an error. -/
theorem iteration_deletes_after_failed_redeliver :
    New "source" "destination" true 1 1 (.ok 100) = .ok (exampleJob true 1 1) ∧
      iteration (exampleJob true 1 1)
          (exampleResponses [1, 2] (fun i => if i = 0 then some 500 else none) none) =
        ([Event.Retrieve "source",
          Event.Redeliver [1] "destination" (some 500),
          Event.Redeliver [2] "destination" none,
          Event.SetCurrent 2,
          Event.Delete [1, 2] "source"], Outcome.next) :=
  ⟨rfl, rfl⟩

/-- Claim C8, as stated, fails: with `GetCurrent() = GetMax() = 2^63 - 1` and one retrieved
message, `min(n + GetCurrent(), GetMax())` is `2^63 - 1`, but the `int64` sum of line 81 wraps
to `-2^63`, the clamp of line 83 does not fire, and `SetCurrent` is called with `-2^63`. -/
theorem iteration_SetCurrent_wraps :
    iteration (exampleJob true 1 1)
        { exampleResponses [7] (fun _ => none) none with
          current := 9223372036854775807, max := 9223372036854775807 } =
      ([Event.Retrieve "source",
        Event.Redeliver [7] "destination" none,
        Event.SetCurrent (-9223372036854775808),
        Event.Delete [7] "source"], Outcome.next) ∧
    min ((([7] : List Nat).length : Int) + 9223372036854775807) 9223372036854775807 =
      9223372036854775807 ∧
    (-9223372036854775808 : Int) ≠ 9223372036854775807 :=
  ⟨rfl, by decide, by decide⟩

/-- Claim C8, amended: in a job whose batch size is positive, every iteration whose `Retrieve`
returns `n > 0` messages calls `SetCurrent` exactly once, with the value
`min(n + GetCurrent(), GetMax())` in which the sum is the `int64` sum, which wraps around when
`n + GetCurrent()` exceeds `2^63 - 1` and is the mathematical sum otherwise, whatever the
`Redeliver` calls return; only the `Retrieve` and `Redeliver` calls come before it, and only a
`Delete` call and the report of an error come after it. -/
theorem iteration_SetCurrent_once {Msg Err : Type} (t : Job Err) (r : Responses Msg Err)
    (messages : List Msg) (hsize : 0 < t.batchSize) (hterm : r.terminated = false)
    (hret : r.retrieved = .ok messages) (hn : 0 < messages.length) :
    (∃ pre post, (iteration t r).1 =
        pre ++ Event.SetCurrent (min (wrapInt64 ((messages.length : Int) + r.current)) r.max)
          :: post ∧
      (∀ e ∈ pre, (∃ q, e = Event.Retrieve q) ∨ ∃ b q res, e = Event.Redeliver b q res) ∧
      (∀ e ∈ post, (∃ m q, e = Event.Delete m q) ∨ ∃ err, e = Event.SendError err)) ∧
    (-(2 ^ 63) ≤ (messages.length : Int) + r.current →
      (messages.length : Int) + r.current < 2 ^ 63 →
      min (wrapInt64 ((messages.length : Int) + r.current)) r.max =
        min ((messages.length : Int) + r.current) r.max) := by
  have hne : messages ≠ [] := fun h => by rw [h] at hn; exact Nat.lt_irrefl _ hn
  obtain ⟨batches, -, tail, out, hit, hcases⟩ := iteration_shape t r messages hsize hterm hret hne
  refine ⟨⟨Event.Retrieve t.SourceQueue ::
    (publishAll t.DestinationQueue r.redeliver 0 batches none).1, tail, ?_, ?_, ?_⟩, ?_⟩
  · rw [hit, ← projection_eq_min]
  · intro e he
    rcases List.mem_cons.1 he with rfl | he
    · exact Or.inl ⟨_, rfl⟩
    · exact Or.inr (publishAll_events _ _ _ _ _ e he)
  · intro e he
    rcases hcases with ⟨err, -, rfl, -⟩ | ⟨-, -, err, -, rfl, -⟩ | ⟨-, -, -, rfl, -⟩ |
      ⟨-, -, rfl, -⟩
    · rw [List.mem_singleton] at he
      exact Or.inr ⟨err, he⟩
    · rcases List.mem_cons.1 he with rfl | he
      · exact Or.inl ⟨_, _, rfl⟩
      · rw [List.mem_singleton] at he
        exact Or.inr ⟨err, he⟩
    · rw [List.mem_singleton] at he
      exact Or.inl ⟨_, _, he⟩
    · cases he
  · intro hlo hhi
    rw [wrapInt64_eq_self _ hlo hhi]

/-- Claim C8, amended, at batch size 2 and three retrieved messages, the first `Redeliver`
failing: the one `SetCurrent` call has the value 3 and precedes the `Delete` call. -/
theorem iteration_SetCurrent_once_witness :
    iteration (exampleJob true 1 2)
        (exampleResponses [1, 2, 3] (fun i => if i = 0 then some 500 else none) none) =
      ([Event.Retrieve "source",
        Event.Redeliver [1, 2] "destination" (some 500),
        Event.Redeliver [3] "destination" none,
        Event.SetCurrent 3,
        Event.Delete [1, 2, 3] "source"], Outcome.next) ∧
    ((∃ pre post, (iteration (exampleJob true 1 2)
          (exampleResponses [1, 2, 3] (fun i => if i = 0 then some 500 else none) none)).1 =
        pre ++ Event.SetCurrent (min (wrapInt64 ((([1, 2, 3] : List Nat).length : Int) + 0)) 100)
          :: post ∧
      (∀ e ∈ pre, (∃ q, e = Event.Retrieve q) ∨ ∃ b q res, e = Event.Redeliver b q res) ∧
      (∀ e ∈ post, (∃ m q, e = Event.Delete m q) ∨ ∃ err, e = Event.SendError err)) ∧
    (-(2 ^ 63) ≤ (([1, 2, 3] : List Nat).length : Int) + 0 →
      (([1, 2, 3] : List Nat).length : Int) + 0 < 2 ^ 63 →
      min (wrapInt64 ((([1, 2, 3] : List Nat).length : Int) + 0)) 100 =
        min ((([1, 2, 3] : List Nat).length : Int) + 0) 100)) :=
  ⟨rfl, iteration_SetCurrent_once (exampleJob true 1 2)
    (exampleResponses [1, 2, 3] (fun i => if i = 0 then some 500 else none) none) [1, 2, 3]
    (by decide) rfl rfl (by decide)⟩

/-- Claim C9: for a `Job` built by `New`, `Run` returns exactly when every worker has
returned; it returns `nil` if and only if no worker sent an error on the error channel, and
otherwise the first error that was sent (the head of the buffer), the later ones being
dropped. In particular, when one worker's `Delete` fails and no other worker sends an error,
`Run` returns that deletion error. -/
theorem Run_returns_first_error {Msg Err : Type} (src dst : String) (delete : Bool)
    (concurrency batchSize : Int) (estimate : Except Err Int) (t : Job Err)
    (hNew : New src dst delete concurrency batchSize estimate = .ok t)
    (scripts : Nat → List (Responses Msg Err)) :
    (∀ res, Run t scripts = RunResult.returned res ↔
      ((∀ i, i < t.Concurrency.toNat → (workerFn t (scripts i)).2 = Outcome.returned) ∧
        res = (allSent t scripts).head?)) ∧
    (Run t scripts = RunResult.returned none ↔
      ((∀ i, i < t.Concurrency.toNat → (workerFn t (scripts i)).2 = Outcome.returned) ∧
        ∀ i, i < t.Concurrency.toNat → sentErrors (workerFn t (scripts i)).1 = [])) ∧
    (∀ (j : Nat) (err : Err) (pre : List (Event Msg Err)) (messages : List Msg),
      j < t.Concurrency.toNat →
      (workerFn t (scripts j)).1 =
        pre ++ [Event.Delete messages t.SourceQueue, Event.SendError err] →
      (∀ i, i < t.Concurrency.toNat → i ≠ j → sentErrors (workerFn t (scripts i)).1 = []) →
      (∀ i, i < t.Concurrency.toNat → (workerFn t (scripts i)).2 = Outcome.returned) →
      Run t scripts = RunResult.returned (some err)) := by
  obtain ⟨-, hK, -, hch, -⟩ := New_eq_ok src dst delete concurrency batchSize estimate t hNew
  rw [← hK] at hch
  have hiff := Run_eq_returned_iff t hch scripts
  refine ⟨hiff, ?_, ?_⟩
  · rw [hiff none]
    have hnil : (none = (allSent t scripts).head?) ↔
        ∀ i, i < t.Concurrency.toNat → sentErrors (workerFn t (scripts i)).1 = [] := by
      rw [eq_comm, List.head?_eq_none_iff, allSent_eq, List.flatten_eq_nil_iff]
      simp only [List.mem_map, List.mem_range]
      constructor
      · intro h i hi; exact h _ ⟨i, hi, rfl⟩
      · rintro h l ⟨i, hi, rfl⟩; exact h i hi
    rw [hnil]
  · intro j err pre messages hj hev hothers hall
    rw [hiff (some err)]
    refine ⟨hall, ?_⟩
    have hpre : sentErrors pre = [] := by
      have hlast := workerFn_sendsLast t (scripts j)
      rcases hlast with h | ⟨pre1, e, h1, h2, -⟩
      · rw [hev, sentErrors_append] at h
        exact (List.append_eq_nil.1 h).1
      · rw [h1] at hev
        have hpre1 : pre1 = pre ++ [Event.Delete messages t.SourceQueue] := by
          have h3 : pre1 ++ [Event.SendError e] =
              (pre ++ [Event.Delete messages t.SourceQueue]) ++ [Event.SendError err] := by
            rw [hev]; simp
          exact (List.append_inj_left' h3 rfl)
        rw [hpre1, sentErrors_append] at h2
        exact (List.append_eq_nil.1 h2).1
    have hj2 : sentErrors (workerFn t (scripts j)).1 = [err] := by
      rw [hev, sentErrors_append, hpre]; rfl
    rw [allSent_eq, flatten_map_single (fun i => sentErrors (workerFn t (scripts i)).1) j err hj2
      (List.range t.Concurrency.toNat) (List.nodup_range _) (List.mem_range.2 hj)
      (fun i hi hne => hothers i (List.mem_range.1 hi) hne)]
    rfl

/-- Claim C9 at concurrency 4: the first worker publishes two messages and its `Delete` fails
with error 503, the three others find the queue empty; `Run` returns error 503. -/
theorem Run_returns_first_error_witness :
    New "source" "destination" true 4 10 (.ok 100) = .ok (exampleJob true 4 10) ∧
      workerFn (exampleJob true 4 10) (exampleScripts 0) =
        ([Event.Retrieve "source", Event.Redeliver [1, 2] "destination" none,
          Event.SetCurrent 2, Event.Delete [1, 2] "source", Event.SendError 503],
          Outcome.returned) ∧
      Run (exampleJob true 4 10) exampleScripts = RunResult.returned (some 503) :=
  ⟨rfl, rfl,
    (Run_returns_first_error "source" "destination" true 4 10 (.ok 100) (exampleJob true 4 10)
      rfl exampleScripts).2.2 0 503
      [Event.Retrieve "source", Event.Redeliver [1, 2] "destination" none, Event.SetCurrent 2]
      [1, 2] (by decide) rfl (by decide) (by decide)⟩

/-- Claim C10: every execution of a worker's loop sends at most once on the error channel, and
after that send the worker has returned and makes no further `Retrieve`, `Redeliver`,
`SetCurrent` or `Delete` call; so, for a `Job` built by `New` with concurrency `K`, the `K`
workers of a `Run` send at most `K` errors on the error channel of capacity `K`, and no send
blocks. -/
theorem workerFn_sends_at_most_once {Msg Err : Type} (t : Job Err)
    (script : List (Responses Msg Err)) :
    ((sentErrors (workerFn t script).1).length ≤ 1 ∧
      ∀ (pre : List (Event Msg Err)) (err : Err) (post : List (Event Msg Err)),
        (workerFn t script).1 = pre ++ Event.SendError err :: post →
        post = [] ∧ (workerFn t script).2 = Outcome.returned) ∧
    (∀ (src dst : String) (delete : Bool) (concurrency batchSize : Int)
      (estimate : Except Err Int),
      New src dst delete concurrency batchSize estimate = .ok t →
      ∀ scripts : Nat → List (Responses Msg Err),
        t.errorsCh.cap = t.Concurrency.toNat ∧
        (allSent t scripts).length ≤ t.errorsCh.cap ∧
        ∃ ch, t.errorsCh.sendAll (allSent t scripts) = some ch ∧
          ch.buf = allSent t scripts) := by
  have hlast := workerFn_sendsLast t script
  refine ⟨⟨sendsLast_length _ _ hlast, sendsLast_nothing_after _ _ hlast⟩, ?_⟩
  intro src dst delete concurrency batchSize estimate hNew scripts
  obtain ⟨-, hK, -, hch, -⟩ := New_eq_ok src dst delete concurrency batchSize estimate t hNew
  rw [← hK] at hch
  have hcap : t.errorsCh.cap = t.Concurrency.toNat := by rw [hch]; rfl
  have hbuf : t.errorsCh.buf = [] := by rw [hch]; rfl
  have hlen := allSent_length_le t scripts
  refine ⟨hcap, by rw [hcap]; exact hlen, _, Chan.sendAll_of_room _ _ ?_, ?_⟩
  · rw [hbuf, hcap]; simpa using hlen
  · simp only [hbuf, List.nil_append]

/-- Claim C10 at concurrency 4: the worker whose `Delete` fails sends one error, as its last
event, and the error channel of capacity 4 takes every error sent during the run. -/
theorem workerFn_sends_at_most_once_witness :
    ((sentErrors (workerFn (exampleJob true 4 10) (exampleScripts 0)).1).length ≤ 1 ∧
      (workerFn (exampleJob true 4 10) (exampleScripts 0)).2 = Outcome.returned) ∧
    ((exampleJob true 4 10).errorsCh.cap = (exampleJob true 4 10).Concurrency.toNat ∧
      (allSent (exampleJob true 4 10) exampleScripts).length ≤
        (exampleJob true 4 10).errorsCh.cap ∧
      ∃ ch, (exampleJob true 4 10).errorsCh.sendAll
          (allSent (exampleJob true 4 10) exampleScripts) = some ch ∧
        ch.buf = allSent (exampleJob true 4 10) exampleScripts) :=
  ⟨⟨(workerFn_sends_at_most_once (exampleJob true 4 10) (exampleScripts 0)).1.1,
      ((workerFn_sends_at_most_once (exampleJob true 4 10) (exampleScripts 0)).1.2
        [Event.Retrieve "source", Event.Redeliver [1, 2] "destination" none,
          Event.SetCurrent 2, Event.Delete [1, 2] "source"] 503 [] rfl).2⟩,
    (workerFn_sends_at_most_once (exampleJob true 4 10) (exampleScripts 0)).2
      "source" "destination" true 4 10 (.ok 100) rfl exampleScripts⟩

end Transfer
